import Mathlib

/-!
Verification of the telnet protocol engine (libtelnet-rs).

The definitions below are a shallow embedding of the Rust sources:
bytes are modelled as `Nat` (the `u8` range 0..255 in the program),
byte buffers as `List Nat`, and the compatibility table as a function
from option codes to packed `u8` masks, mirroring `[u8; 256]`.

Every buffer index or slice taken by the Rust code is modelled as a
checked access returning `Option`, so that `Parser.receive` returns
`none` exactly when the original code would panic from an
out-of-bounds index (or an index underflow).  The totality theorem
for `Parser.receive` is therefore the no-panic statement.
-/

namespace op_command

abbrev IAC : Nat := 255
abbrev WILL : Nat := 251
abbrev WONT : Nat := 252
abbrev DO : Nat := 253
abbrev DONT : Nat := 254
abbrev NOP : Nat := 241
abbrev SB : Nat := 250
abbrev SE : Nat := 240
abbrev IS : Nat := 0
abbrev SEND : Nat := 1
abbrev GA : Nat := 249

/-- Modelled from the spec: `op_command::EOR` is referenced by `lib.rs`
(`GA | EOR | NOP` in `extract_event_data`) but the constant is absent from
the `telnet.rs` in the analysed sources; the spec fixes EOR = 0xEF. -/
abbrev EOR : Nat := 239

end op_command

namespace op_option

abbrev LINEMODE : Nat := 34
abbrev MCCP2 : Nat := 86
abbrev MCCP3 : Nat := 87

end op_option

/-- Expansion of a compatibility bitmask: `local`/`remote` support flags and
`local_state`/`remote_state` enabled flags (the Rust field `local` is a Lean
keyword, hence `local_`). -/
structure CompatibilityEntry where
  local_ : Bool
  remote : Bool
  local_state : Bool
  remote_state : Bool
deriving DecidableEq, Repr

/-- Packs an entry into a `u8` bitmask (bits 1, 2, 4, 8 as in the Rust
constants `ENABLED_LOCAL`, `ENABLED_REMOTE`, `LOCAL_STATE`, `REMOTE_STATE`). -/
def CompatibilityEntry.into_u8 (e : CompatibilityEntry) : Nat :=
  (if e.local_ then 1 else 0) |||
  (if e.remote then 2 else 0) |||
  (if e.local_state then 4 else 0) |||
  (if e.remote_state then 8 else 0)

/-- Expands a `u8` bitmask into an entry (Rust `CompatibilityEntry::from`). -/
def CompatibilityEntry.from_u8 (value : Nat) : CompatibilityEntry where
  local_ := value &&& 1 == 1
  remote := value &&& 2 == 2
  local_state := value &&& 4 == 4
  remote_state := value &&& 8 == 8

/-- The `[u8; 256]` table of packed masks, modelled as a function from
option codes to masks. -/
structure CompatibilityTable where
  options : Nat → Nat

def CompatibilityTable.new : CompatibilityTable := ⟨fun _ => 0⟩

def CompatibilityTable.get_option (t : CompatibilityTable) (option : Nat) :
    CompatibilityEntry :=
  CompatibilityEntry.from_u8 (t.options option)

def CompatibilityTable.set_option (t : CompatibilityTable) (option : Nat)
    (entry : CompatibilityEntry) : CompatibilityTable :=
  ⟨fun x => if x = option then entry.into_u8 else t.options x⟩

def CompatibilityTable.from_options (values : List (Nat × Nat)) :
    CompatibilityTable :=
  ⟨values.foldl (fun acc vo => fun x => if x = vo.1 then vo.2 else acc x)
    (fun _ => 0)⟩

def CompatibilityTable.support_local (t : CompatibilityTable) (option : Nat) :
    CompatibilityTable :=
  t.set_option option { t.get_option option with local_ := true }

def CompatibilityTable.support_remote (t : CompatibilityTable) (option : Nat) :
    CompatibilityTable :=
  t.set_option option { t.get_option option with remote := true }

def CompatibilityTable.support (t : CompatibilityTable) (option : Nat) :
    CompatibilityTable :=
  t.set_option option
    { t.get_option option with local_ := true, remote := true }

/-- Parser output events (`events::TelnetEvents`); the `IAC` and
`Negotiation` variants carry the fields of `TelnetIAC` and
`TelnetNegotiation`. -/
inductive TelnetEvents where
  | IAC (command : Nat)
  | Negotiation (command : Nat) (option : Nat)
  | Subnegotiation (option : Nat) (buffer : List Nat)
  | DataReceive (buffer : List Nat)
  | DataSend (buffer : List Nat)
  | DecompressImmediate (buffer : List Nat)
deriving DecidableEq, Repr

/-- Internal segment type produced by `extract_event_data` (Rust `EventType`;
its `None` variant is spelled `NoneSeg` here). -/
inductive EventType where
  | NoneSeg (buffer : List Nat)
  | IAC (buffer : List Nat)
  | SubNegotiation (buffer : List Nat) (remaining : Option (List Nat))
  | Neg (buffer : List Nat)
deriving DecidableEq, Repr

/-- Checked list indexing: `getB l i` is the byte at `i`, or `none` when the
Rust expression `l[i]` would panic. -/
def getB : List Nat → Nat → Option Nat
  | [], _ => none
  | b :: _, 0 => some b
  | _ :: rest, i + 1 => getB rest i

/-- Checked slicing: the Rust range indexing `&l[a..b]`, or `none` when that
slice would panic. -/
def slice? (l : List Nat) (a b : Nat) : Option (List Nat) :=
  if a ≤ b ∧ b ≤ l.length then some ((l.drop a).take (b - a)) else none

/-- Scanner states of `extract_event_data` (the local Rust enum `State`). -/
inductive ScanState where
  | Normal
  | IAC
  | Neg
  | Sub
deriving DecidableEq, Repr

/-- Accumulator of the `extract_event_data` scan loop: segments pushed so
far, the `cmd_begin` index, the scanner state, and whether the loop has hit
the MCCP `break`. -/
structure ExtractAcc where
  events : List EventType
  cmd_begin : Nat
  st : ScanState
  stop : Bool
deriving Repr

namespace Parser

/-- One iteration of the `extract_event_data` scan loop, for the byte `val`
at position `index` of the accumulated buffer `buf`. -/
def extract_step (buf : List Nat) (index : Nat) (val : Nat) (a : ExtractAcc) :
    Option ExtractAcc :=
  match a.st with
  | ScanState.Normal =>
      if val = op_command.IAC then do
        let a2 ←
          if a.cmd_begin < index then do
            let s ← slice? buf a.cmd_begin index
            pure { a with events := a.events ++ [EventType.NoneSeg s] }
          else pure a
        some { a2 with cmd_begin := index, st := ScanState.IAC }
      else some a
  | ScanState.IAC =>
      if val = op_command.IAC then some { a with st := ScanState.Normal }
      else if val = op_command.GA ∨ val = op_command.EOR ∨ val = op_command.NOP then do
        let s ← slice? buf a.cmd_begin (index + 1)
        some { a with
                 events := a.events ++ [EventType.IAC s],
                 cmd_begin := index + 1, st := ScanState.Normal }
      else if val = op_command.SB then some { a with st := ScanState.Sub }
      else some { a with st := ScanState.Neg }
  | ScanState.Neg => do
      let s ← slice? buf a.cmd_begin (index + 1)
      some { a with
               events := a.events ++ [EventType.Neg s],
               cmd_begin := index + 1, st := ScanState.Normal }
  | ScanState.Sub => do
      let b0 ← getB buf a.cmd_begin
      let b1 ← getB buf (a.cmd_begin + 1)
      if index = 0 then none
      else do
        let bp ← getB buf (index - 1)
        if 4 ≤ index - a.cmd_begin ∧ (b0 = op_command.IAC ∧ b1 = op_command.SB)
            ∧ (val = op_command.SE ∧ bp = op_command.IAC) then do
          let opt ← getB buf (a.cmd_begin + 2)
          let s ← slice? buf a.cmd_begin (index + 1)
          if opt = op_option.MCCP2 ∨ opt = op_option.MCCP3 then do
            let r ← slice? buf (index + 1) buf.length
            some { a with
                     events := a.events ++ [EventType.SubNegotiation s (some r)],
                     cmd_begin := buf.length, stop := true }
          else
            some { a with
                     events := a.events ++ [EventType.SubNegotiation s none],
                     cmd_begin := index + 1, st := ScanState.Normal }
        else some a

/-- The scan loop of `extract_event_data`; `stop` models the `break` taken
after an MCCP subnegotiation. -/
def extract_go (buf : List Nat) : Nat → List Nat → ExtractAcc → Option ExtractAcc
  | _, [], a => some a
  | index, val :: rest, a =>
      if a.stop = true then some a
      else do
        let a2 ← extract_step buf index val a
        extract_go buf (index + 1) rest a2

/-- Rust `Parser::extract_event_data`: scans the accumulation buffer into
segments; the buffer itself is cleared by the caller (`process` starts from
an empty re-buffer). -/
def extract_event_data (buf : List Nat) : Option (List EventType) := do
  let a ← extract_go buf 0 buf
    { events := [], cmd_begin := 0, st := ScanState.Normal, stop := false }
  if a.cmd_begin < buf.length then
    match a.st with
    | ScanState.Sub => do
        let s ← slice? buf a.cmd_begin buf.length
        some (a.events ++ [EventType.SubNegotiation s none])
    | _ => do
        let s ← slice? buf a.cmd_begin buf.length
        some (a.events ++ [EventType.NoneSeg s])
  else some a.events

end Parser

/-- Accumulator of the `process` loop: events emitted so far, the (possibly
updated) compatibility table, and the re-built accumulation buffer. -/
structure ProcessAcc where
  event_list : List TelnetEvents
  options : CompatibilityTable
  buffer : List Nat

namespace Parser

/-- Handling of one segment inside `Parser::process`. -/
def process_event (acc : ProcessAcc) (ev : EventType) : Option ProcessAcc :=
  match ev with
  | EventType.NoneSeg b | EventType.IAC b | EventType.Neg b =>
      if b.length = 0 then some acc
      else do
        let b0 ← getB b 0
        if b0 = op_command.IAC then
          if b.length = 2 then do
            let b1 ← getB b 1
            if b1 ≠ op_command.SE then
              some { acc with event_list := acc.event_list ++ [TelnetEvents.IAC b1] }
            else some acc
          else if b.length = 3 then do
            let b1 ← getB b 1
            let b2 ← getB b 2
            let opt := acc.options.get_option b2
            if b1 = op_command.WILL then
              if opt.remote = true ∧ opt.remote_state = false then
                some { acc with
                  event_list := acc.event_list ++
                    [TelnetEvents.DataSend [op_command.IAC, op_command.DO, b2],
                     TelnetEvents.Negotiation b1 b2],
                  options := acc.options.set_option b2 { opt with remote_state := true } }
              else if opt.remote = false then
                some { acc with event_list := acc.event_list ++
                  [TelnetEvents.DataSend [op_command.IAC, op_command.DONT, b2]] }
              else some acc
            else if b1 = op_command.WONT then
              let acc2 :=
                if opt.remote_state = true then
                  { acc with
                    options := acc.options.set_option b2 { opt with remote_state := false },
                    event_list := acc.event_list ++
                      [TelnetEvents.DataSend [op_command.IAC, op_command.DONT, b2]] }
                else acc
              some { acc2 with event_list := acc2.event_list ++ [TelnetEvents.Negotiation b1 b2] }
            else if b1 = op_command.DO then
              if opt.local_ = true ∧ opt.local_state = false then
                some { acc with
                  event_list := acc.event_list ++
                    [TelnetEvents.DataSend [op_command.IAC, op_command.WILL, b2],
                     TelnetEvents.Negotiation b1 b2],
                  options := acc.options.set_option b2
                    { opt with local_state := true, remote_state := true } }
              else if opt.local_ = false then
                some { acc with event_list := acc.event_list ++
                  [TelnetEvents.DataSend [op_command.IAC, op_command.WONT, b2]] }
              else some acc
            else if b1 = op_command.DONT then
              let acc2 :=
                if opt.local_state = true then
                  { acc with
                    options := acc.options.set_option b2 { opt with local_state := false },
                    event_list := acc.event_list ++
                      [TelnetEvents.DataSend [op_command.IAC, op_command.WONT, b2]] }
                else acc
              some { acc2 with event_list := acc2.event_list ++ [TelnetEvents.Negotiation b1 b2] }
            else some acc
          else some acc
        else
          some { acc with event_list := acc.event_list ++ [TelnetEvents.DataReceive b] }
  | EventType.SubNegotiation b remaining =>
      let len := b.length
      if len < 2 then none
      else do
        let x ← getB b (len - 2)
        let y ← getB b (len - 1)
        if x = op_command.IAC ∧ y = op_command.SE then do
          let b2 ← getB b 2
          let opt := acc.options.get_option b2
          if opt.local_ = true ∧ opt.local_state = true ∧ 3 ≤ len - 2 then do
            let dbuffer ← slice? b 3 (len - 2)
            let extra :=
              match remaining with
              | some rbuf => [TelnetEvents.DecompressImmediate rbuf]
              | none => []
            some { acc with event_list := acc.event_list ++
              [TelnetEvents.Subnegotiation b2 dbuffer] ++ extra }
          else some acc
        else
          some { acc with buffer := acc.buffer ++ b }

/-- The segment loop of `Parser::process`. -/
def process_go : ProcessAcc → List EventType → Option ProcessAcc
  | acc, [] => some acc
  | acc, ev :: rest => do
      let acc2 ← process_event acc ev
      process_go acc2 rest

end Parser

/-- The parser state: compatibility table plus accumulation buffer. -/
structure Parser where
  options : CompatibilityTable
  buffer : List Nat

namespace Parser

/-- Rust `Parser::process`: extract the segments of the accumulated buffer
and interpret them, producing the event list and the next parser state. -/
def process (p : Parser) : Option (List TelnetEvents × Parser) := do
  let evs ← extract_event_data p.buffer
  let acc ← process_go { event_list := [], options := p.options, buffer := [] } evs
  some (acc.event_list, { options := acc.options, buffer := acc.buffer })

/-- Rust `Parser::receive`: append the delivered bytes and process. -/
def receive (p : Parser) (data : List Nat) : Option (List TelnetEvents × Parser) :=
  process { p with buffer := p.buffer ++ data }

/-- A sequence of `receive` calls, concatenating the returned event lists;
`none` if any call hits an out-of-bounds access. -/
def receiveSeq : Parser → List (List Nat) → Option (List TelnetEvents × Parser)
  | p, [] => some ([], p)
  | p, d :: ds => do
      let r ← receive p d
      let r2 ← receiveSeq r.2 ds
      some (r.1 ++ r2.1, r2.2)

/-- Rust `Parser::escape_iac`: doubles every 0xFF byte. -/
def escape_iac : List Nat → List Nat
  | [] => []
  | byte :: rest =>
      if byte = 255 then byte :: 255 :: escape_iac rest
      else byte :: escape_iac rest

/-- The loop of `Parser::unescape_iac` with its `last` variable; the Rust
`continue` skips the `last = *val` update, so `last` is threaded unchanged
in the skipping branch. -/
def unescape_go : Nat → List Nat → List Nat
  | _, [] => []
  | last, val :: rest =>
      if val = 255 ∧ last = 255 then unescape_go last rest
      else val :: unescape_go val rest

/-- Rust `Parser::unescape_iac` (with `last` initialised to 0). -/
def unescape_iac (data : List Nat) : List Nat := unescape_go 0 data

/-- Rust `Parser::negotiate`: the 3-byte negotiation frame as a DataSend
event (`TelnetNegotiation::into::<Bytes>` is `[IAC, command, option]`). -/
def negotiate (command option : Nat) : TelnetEvents :=
  TelnetEvents.DataSend [op_command.IAC, command, option]

/-- Rust `Parser::_will`: state-checked local-enable request; returns the
optional DataSend event and the updated table. -/
def _will (t : CompatibilityTable) (option : Nat) :
    Option TelnetEvents × CompatibilityTable :=
  let opt := t.get_option option
  if opt.local_ = true ∧ opt.local_state = false then
    (some (negotiate 251 option), t.set_option option { opt with local_state := true })
  else (none, t)

/-- Rust `Parser::_wont`. -/
def _wont (t : CompatibilityTable) (option : Nat) :
    Option TelnetEvents × CompatibilityTable :=
  let opt := t.get_option option
  if opt.local_state = true then
    (some (negotiate 252 option), t.set_option option { opt with local_state := false })
  else (none, t)

/-- Rust `Parser::_do`: note that unlike `_will` it performs no
`set_option` call. -/
def _do (t : CompatibilityTable) (option : Nat) :
    Option TelnetEvents × CompatibilityTable :=
  let opt := t.get_option option
  if opt.remote = true ∧ opt.remote_state = false then
    (some (negotiate 253 option), t)
  else (none, t)

/-- Rust `Parser::_dont`: performs no `set_option` call. -/
def _dont (t : CompatibilityTable) (option : Nat) :
    Option TelnetEvents × CompatibilityTable :=
  let opt := t.get_option option
  if opt.remote_state = true then
    (some (negotiate 254 option), t)
  else (none, t)

/-- Rust `Parser::send_text`: escapes `text ++ "\r\n"` and wraps it as a
DataSend event. -/
def send_text (text : List Nat) : TelnetEvents :=
  TelnetEvents.DataSend (escape_iac (text ++ [13, 10]))

end Parser

/-- A well-formed subnegotiation wire frame `IAC SB option payload IAC SE`. -/
def subnegFrame (option : Nat) (payload : List Nat) : List Nat :=
  op_command.IAC :: op_command.SB :: option ::
    (payload ++ [op_command.IAC, op_command.SE])

/-! ### Scan invariants: every access of `extract_event_data` stays in
bounds, and every subnegotiation segment it emits starts with IAC SB. -/

/-- The shape invariant of emitted segments: a subnegotiation segment is at
least 2 bytes and starts with `[IAC, SB]`. -/
def SegOK : EventType → Prop
  | EventType.SubNegotiation b _ => 2 ≤ b.length ∧ getB b 0 = some 255 ∧ getB b 1 = some 250
  | _ => True

/-- The relation between `cmd_begin`, the scanner state and the current
index maintained by the scan loop. -/
def StInv (buf : List Nat) (i : Nat) (a : ExtractAcc) : Prop :=
  match a.st with
  | ScanState.Normal => a.cmd_begin ≤ i
  | ScanState.IAC => a.cmd_begin + 1 = i ∧ getB buf a.cmd_begin = some 255
  | ScanState.Neg => a.cmd_begin + 2 = i
  | ScanState.Sub => a.cmd_begin + 2 ≤ i ∧ getB buf a.cmd_begin = some 255 ∧
      getB buf (a.cmd_begin + 1) = some 250

/-- The full loop invariant of the `extract_event_data` scan. -/
def AccInv (buf : List Nat) (i : Nat) (a : ExtractAcc) : Prop :=
  (∀ e ∈ a.events, SegOK e) ∧
  (a.stop = true → a.cmd_begin = buf.length) ∧
  (a.stop = false → StInv buf i a)

/-! ### Basic facts about checked indexing and slicing -/

theorem getB_isSome {l : List Nat} {i : Nat} (h : i < l.length) :
    ∃ v, getB l i = some v := by
  induction l generalizing i with
  | nil => simp at h
  | cons b rest ih =>
      cases i with
      | zero => exact ⟨b, rfl⟩
      | succ j => exact ih (by simpa using h)

theorem getB_lt_length {l : List Nat} {i v : Nat} (h : getB l i = some v) :
    i < l.length := by
  induction l generalizing i with
  | nil => simp [getB] at h
  | cons b rest ih =>
      cases i with
      | zero => simp
      | succ j => simpa using ih h

theorem getB_append_left {l1 l2 : List Nat} {i : Nat} (h : i < l1.length) :
    getB (l1 ++ l2) i = getB l1 i := by
  induction l1 generalizing i with
  | nil => simp at h
  | cons b rest ih =>
      cases i with
      | zero => rfl
      | succ j => exact ih (by simpa using h)

theorem getB_append_right {l1 l2 : List Nat} {i : Nat} (h : l1.length ≤ i) :
    getB (l1 ++ l2) i = getB l2 (i - l1.length) := by
  induction l1 generalizing i with
  | nil => simp
  | cons b rest ih =>
      cases i with
      | zero => simp at h
      | succ j => simpa using ih (by simpa using h)

theorem getB_take {l : List Nat} {n i : Nat} (h : i < n) :
    getB (l.take n) i = getB l i := by
  induction l generalizing i n with
  | nil => simp
  | cons b rest ih =>
      cases n with
      | zero => omega
      | succ m =>
          cases i with
          | zero => rfl
          | succ j => simpa using ih (by omega)

theorem getB_drop (l : List Nat) (i j : Nat) :
    getB (l.drop i) j = getB l (i + j) := by
  induction l generalizing i with
  | nil => simp [getB]
  | cons b rest ih =>
      cases i with
      | zero => simp
      | succ k =>
          have h2 : k + 1 + j = k + j + 1 := by omega
          simp only [List.drop_succ_cons, ih, h2]
          rfl

theorem drop_take_length {l : List Nat} {a b : Nat} (_hab : a ≤ b)
    (hb : b ≤ l.length) : ((l.drop a).take (b - a)).length = b - a := by
  simp [List.length_take, List.length_drop]
  omega

theorem getB_drop_take {l : List Nat} {a b j : Nat} (hj : j < b - a) :
    getB ((l.drop a).take (b - a)) j = getB l (a + j) := by
  rw [getB_take hj, getB_drop]

theorem slice?_eq {l : List Nat} {a b : Nat} (hab : a ≤ b) (hb : b ≤ l.length) :
    slice? l a b = some ((l.drop a).take (b - a)) := by
  simp [slice?, hab, hb]

theorem slice?_all (l : List Nat) : slice? l 0 l.length = some l := by
  rw [slice?_eq (Nat.zero_le _) (le_refl _)]
  simp

theorem drop_succ_of_drop {l rest : List Nat} {v i : Nat}
    (h : l.drop i = v :: rest) : l.drop (i + 1) = rest := by
  have h2 : (l.drop i).drop 1 = l.drop (i + 1) := List.drop_drop 1 i l
  rw [h] at h2
  simpa using h2.symm

theorem getB_of_drop {l rest : List Nat} {v i : Nat}
    (h : l.drop i = v :: rest) : getB l i = some v := by
  have h2 := getB_drop l i 0
  rw [h] at h2
  simpa using h2.symm

theorem extract_step_inv {buf : List Nat} {i v : Nat} {a : ExtractAcc}
    (hi : i < buf.length) (hv : getB buf i = some v)
    (hstop : a.stop = false) (hinv : StInv buf i a)
    (hev : ∀ e ∈ a.events, SegOK e) :
    ∃ a2, Parser.extract_step buf i v a = some a2 ∧ AccInv buf (i + 1) a2 := by
  have hile : i ≤ buf.length := Nat.le_of_lt hi
  cases hst : a.st with
  | Normal =>
      have hcb : a.cmd_begin ≤ i := by
        have h2 := hinv; unfold StInv at h2; rw [hst] at h2; exact h2
      by_cases hv255 : v = op_command.IAC
      · by_cases hlt : a.cmd_begin < i
        · have hs := slice?_eq (l := buf) (Nat.le_of_lt hlt) hile
          refine ⟨{ a with
              events := a.events ++
                [EventType.NoneSeg ((buf.drop a.cmd_begin).take (i - a.cmd_begin))],
              cmd_begin := i, st := ScanState.IAC }, ?_, ?_, ?_, ?_⟩
          · simp [Parser.extract_step, hst, hv255, hlt, hs]
          · intro e he
            simp only [List.mem_append, List.mem_singleton] at he
            rcases he with he | he
            · exact hev e he
            · subst he; trivial
          · intro h; simp [hstop] at h
          · intro _
            unfold StInv
            exact ⟨rfl, by rw [hv, hv255]⟩
        · refine ⟨{ a with cmd_begin := i, st := ScanState.IAC }, ?_, ?_, ?_, ?_⟩
          · simp [Parser.extract_step, hst, hv255, hlt]
          · exact hev
          · intro h; simp [hstop] at h
          · intro _
            unfold StInv
            exact ⟨rfl, by rw [hv, hv255]⟩
      · refine ⟨a, by simp [Parser.extract_step, hst, hv255], hev, ?_, ?_⟩
        · intro h; simp [hstop] at h
        · intro _
          unfold StInv
          rw [hst]
          omega
  | IAC =>
      have hcb : a.cmd_begin + 1 = i ∧ getB buf a.cmd_begin = some 255 := by
        have h2 := hinv; unfold StInv at h2; rw [hst] at h2; exact h2
      by_cases hv255 : v = op_command.IAC
      · refine ⟨{ a with st := ScanState.Normal },
          by simp [Parser.extract_step, hst, hv255], hev, ?_, ?_⟩
        · intro h; simp [hstop] at h
        · intro _
          unfold StInv
          simp
          omega
      · by_cases hcmd : v = op_command.GA ∨ v = op_command.EOR ∨ v = op_command.NOP
        · have hs := slice?_eq (l := buf) (a := a.cmd_begin) (b := i + 1)
            (by omega) (by omega)
          refine ⟨{ a with
              events := a.events ++
                [EventType.IAC ((buf.drop a.cmd_begin).take (i + 1 - a.cmd_begin))],
              cmd_begin := i + 1, st := ScanState.Normal }, ?_, ?_, ?_, ?_⟩
          · simp [Parser.extract_step, hst, hv255, hcmd, hs]
          · intro e he
            simp only [List.mem_append, List.mem_singleton] at he
            rcases he with he | he
            · exact hev e he
            · subst he; trivial
          · intro h; simp [hstop] at h
          · intro _
            unfold StInv
            simp
        · by_cases hsb : v = op_command.SB
          · refine ⟨{ a with st := ScanState.Sub },
              by simp [Parser.extract_step, hst, hv255, hcmd, hsb], hev, ?_, ?_⟩
            · intro h; simp [hstop] at h
            · intro _
              unfold StInv
              refine ⟨by simp; omega, by simpa using hcb.2, ?_⟩
              simp only []
              rw [hcb.1, hv, hsb]
          · refine ⟨{ a with st := ScanState.Neg },
              by simp [Parser.extract_step, hst, hv255, hcmd, hsb], hev, ?_, ?_⟩
            · intro h; simp [hstop] at h
            · intro _
              unfold StInv
              simp
              omega
  | Neg =>
      have hcb : a.cmd_begin + 2 = i := by
        have h2 := hinv; unfold StInv at h2; rw [hst] at h2; exact h2
      have hs := slice?_eq (l := buf) (a := a.cmd_begin) (b := i + 1)
        (by omega) (by omega)
      refine ⟨{ a with
          events := a.events ++
            [EventType.Neg ((buf.drop a.cmd_begin).take (i + 1 - a.cmd_begin))],
          cmd_begin := i + 1, st := ScanState.Normal }, ?_, ?_, ?_, ?_⟩
      · simp [Parser.extract_step, hst, hs]
      · intro e he
        simp only [List.mem_append, List.mem_singleton] at he
        rcases he with he | he
        · exact hev e he
        · subst he; trivial
      · intro h; simp [hstop] at h
      · intro _
        unfold StInv
        simp
  | Sub =>
      have hcb : a.cmd_begin + 2 ≤ i ∧ getB buf a.cmd_begin = some 255 ∧
          getB buf (a.cmd_begin + 1) = some 250 := by
        have h2 := hinv; unfold StInv at h2; rw [hst] at h2; exact h2
      obtain ⟨hcb2, hb0, hb1⟩ := hcb
      have hi0 : ¬ (i = 0) := by omega
      obtain ⟨w, hw⟩ := getB_isSome (l := buf) (i := i - 1) (by omega)
      by_cases hcond : 4 ≤ i - a.cmd_begin ∧
          ((255 : Nat) = op_command.IAC ∧ (250 : Nat) = op_command.SB) ∧
          (v = op_command.SE ∧ w = op_command.IAC)
      · obtain ⟨wopt, hwopt⟩ := getB_isSome (l := buf) (i := a.cmd_begin + 2) (by omega)
        have hs := slice?_eq (l := buf) (a := a.cmd_begin) (b := i + 1)
          (by omega) (by omega)
        have hsegok : SegOK (EventType.SubNegotiation
            ((buf.drop a.cmd_begin).take (i + 1 - a.cmd_begin)) none) := by
          refine ⟨?_, ?_, ?_⟩
          · rw [drop_take_length (by omega) (by omega)]; omega
          · rw [getB_drop_take (by omega)]; simpa using hb0
          · rw [getB_drop_take (by omega)]; simpa using hb1
        by_cases hmccp : wopt = op_option.MCCP2 ∨ wopt = op_option.MCCP3
        · have hr := slice?_eq (l := buf) (a := i + 1) (b := buf.length)
            (by omega) (le_refl _)
          refine ⟨{ a with
              events := a.events ++
                [EventType.SubNegotiation ((buf.drop a.cmd_begin).take (i + 1 - a.cmd_begin))
                  (some ((buf.drop (i + 1)).take (buf.length - (i + 1))))],
              cmd_begin := buf.length, stop := true }, ?_, ?_, ?_, ?_⟩
          · simp [Parser.extract_step, hst, hb0, hb1, hi0, hw, hcond, hwopt, hs, hmccp, hr]
          · intro e he
            simp only [List.mem_append, List.mem_singleton] at he
            rcases he with he | he
            · exact hev e he
            · subst he; exact hsegok
          · intro _; rfl
          · intro h; simp at h
        · refine ⟨{ a with
              events := a.events ++
                [EventType.SubNegotiation ((buf.drop a.cmd_begin).take (i + 1 - a.cmd_begin))
                  none],
              cmd_begin := i + 1, st := ScanState.Normal }, ?_, ?_, ?_, ?_⟩
          · simp [Parser.extract_step, hst, hb0, hb1, hi0, hw, hcond, hwopt, hs, hmccp]
          · intro e he
            simp only [List.mem_append, List.mem_singleton] at he
            rcases he with he | he
            · exact hev e he
            · subst he; exact hsegok
          · intro h; simp [hstop] at h
          · intro _
            unfold StInv
            simp
      · refine ⟨a, ?_, hev, ?_, ?_⟩
        · simp only [Parser.extract_step, hst, hb0, hb1, hi0, hw]
          simp [hcond]
          intro h1 h2 h3
          exact absurd ⟨h1, ⟨rfl, rfl⟩, h2, h3⟩ hcond
        · intro h; simp [hstop] at h
        · intro _
          unfold StInv
          rw [hst]
          exact ⟨by omega, hb0, hb1⟩
theorem extract_go_inv {buf : List Nat} :
    ∀ (rest : List Nat) (i : Nat) (a : ExtractAcc),
    buf.drop i = rest → i + rest.length = buf.length → AccInv buf i a →
    ∃ a2, Parser.extract_go buf i rest a = some a2 ∧ AccInv buf buf.length a2 := by
  intro rest
  induction rest with
  | nil =>
      intro i a _ hlen hinv
      have hieq : i = buf.length := by simpa using hlen
      subst hieq
      exact ⟨a, rfl, hinv⟩
  | cons v rest2 ih =>
      intro i a hdrop hlen hinv
      obtain ⟨hev, hstopT, hstopF⟩ := hinv
      cases hstop : a.stop with
      | true =>
          refine ⟨a, by simp [Parser.extract_go, hstop], hev, fun _ => hstopT hstop, ?_⟩
          intro h; rw [h] at hstop; cases hstop
      | false =>
          have hi : i < buf.length := by simp at hlen; omega
          have hv : getB buf i = some v := getB_of_drop hdrop
          obtain ⟨a2, hstep, hinv2⟩ :=
            extract_step_inv hi hv hstop (hstopF hstop) hev
          obtain ⟨a3, hgo, hinv3⟩ := ih (i + 1) a2 (drop_succ_of_drop hdrop)
            (by simp at hlen ⊢; omega) hinv2
          refine ⟨a3, ?_, hinv3⟩
          simp [Parser.extract_go, hstop, hstep, hgo]

/-- Totality and segment shape: `extract_event_data` never hits an
out-of-bounds access, and every subnegotiation segment it returns starts
with `[IAC, SB]` and is at least 2 bytes long. -/
theorem extract_event_data_total (buf : List Nat) :
    ∃ evs, Parser.extract_event_data buf = some evs ∧ ∀ e ∈ evs, SegOK e := by
  obtain ⟨a2, hgo, hev2, hstopT, hstopF⟩ :=
    extract_go_inv buf 0
      { events := [], cmd_begin := 0, st := ScanState.Normal, stop := false }
      rfl (by simp)
      (by
        refine ⟨?_, ?_, ?_⟩
        · intro e he; cases he
        · intro h; cases h
        · intro _; exact Nat.zero_le 0)
  by_cases hlt : a2.cmd_begin < buf.length
  · cases hstop : a2.stop with
    | true =>
        exfalso
        have h2 := hstopT hstop
        omega
    | false =>
        have hst2 := hstopF hstop
        have hs := slice?_eq (l := buf) (a := a2.cmd_begin) (b := buf.length)
          (Nat.le_of_lt hlt) (le_refl _)
        cases hscan : a2.st with
        | Sub =>
            have hsub : a2.cmd_begin + 2 ≤ buf.length ∧
                getB buf a2.cmd_begin = some 255 ∧
                getB buf (a2.cmd_begin + 1) = some 250 := by
              have h2 := hst2; unfold StInv at h2; rw [hscan] at h2; exact h2
            refine ⟨a2.events ++ [EventType.SubNegotiation
              ((buf.drop a2.cmd_begin).take (buf.length - a2.cmd_begin)) none], ?_, ?_⟩
            · simp [Parser.extract_event_data, hgo, hlt, hscan, hs]
            · intro e he
              simp only [List.mem_append, List.mem_singleton] at he
              rcases he with he | he
              · exact hev2 e he
              · subst he
                refine ⟨?_, ?_, ?_⟩
                · rw [drop_take_length (by omega) (le_refl _)]; omega
                · rw [getB_drop_take (by omega)]; simpa using hsub.2.1
                · rw [getB_drop_take (by omega)]; simpa using hsub.2.2
        | Normal =>
            refine ⟨a2.events ++ [EventType.NoneSeg
              ((buf.drop a2.cmd_begin).take (buf.length - a2.cmd_begin))], ?_, ?_⟩
            · simp [Parser.extract_event_data, hgo, hlt, hscan, hs]
            · intro e he
              simp only [List.mem_append, List.mem_singleton] at he
              rcases he with he | he
              · exact hev2 e he
              · subst he; trivial
        | IAC =>
            refine ⟨a2.events ++ [EventType.NoneSeg
              ((buf.drop a2.cmd_begin).take (buf.length - a2.cmd_begin))], ?_, ?_⟩
            · simp [Parser.extract_event_data, hgo, hlt, hscan, hs]
            · intro e he
              simp only [List.mem_append, List.mem_singleton] at he
              rcases he with he | he
              · exact hev2 e he
              · subst he; trivial
        | Neg =>
            refine ⟨a2.events ++ [EventType.NoneSeg
              ((buf.drop a2.cmd_begin).take (buf.length - a2.cmd_begin))], ?_, ?_⟩
            · simp [Parser.extract_event_data, hgo, hlt, hscan, hs]
            · intro e he
              simp only [List.mem_append, List.mem_singleton] at he
              rcases he with he | he
              · exact hev2 e he
              · subst he; trivial
  · refine ⟨a2.events, ?_, hev2⟩
    simp [Parser.extract_event_data, hgo, hlt]

set_option maxHeartbeats 1000000 in
theorem process_event_total (acc : ProcessAcc) (ev : EventType) (hok : SegOK ev) :
    ∃ acc2, Parser.process_event acc ev = some acc2 := by
  cases ev with
  | NoneSeg b | IAC b | Neg b =>
      by_cases hlen0 : b.length = 0
      · exact ⟨acc, by simp [Parser.process_event, hlen0]⟩
      · obtain ⟨b0, hb0⟩ := getB_isSome (l := b) (i := 0) (by omega)
        by_cases hlen2 : b.length = 2
        · obtain ⟨b1, hb1⟩ := getB_isSome (l := b) (i := 1) (by omega)
          rw [← Option.isSome_iff_exists]
          simp [Parser.process_event, hb0, hb1, hlen2, Option.some_bind,
            apply_ite Option.isSome]
        · by_cases hlen3 : b.length = 3
          · obtain ⟨b1, hb1⟩ := getB_isSome (l := b) (i := 1) (by omega)
            obtain ⟨b2, hb2⟩ := getB_isSome (l := b) (i := 2) (by omega)
            rw [← Option.isSome_iff_exists]
            simp [Parser.process_event, hb0, hb1, hb2, hlen2, hlen3, Option.some_bind,
              apply_ite Option.isSome]
          · rw [← Option.isSome_iff_exists]
            simp [Parser.process_event, hb0, hlen0, hlen2, hlen3, Option.some_bind,
              apply_ite Option.isSome]
  | SubNegotiation b rem =>
      obtain ⟨hlen2, hb0v, hb1v⟩ := hok
      have hlt : ¬ (b.length < 2) := by omega
      obtain ⟨x, hx⟩ := getB_isSome (l := b) (i := b.length - 2) (by omega)
      obtain ⟨y, hy⟩ := getB_isSome (l := b) (i := b.length - 1) (by omega)
      by_cases hvalid : x = op_command.IAC ∧ y = op_command.SE
      · have hlen3 : 3 ≤ b.length := by
          by_contra hc
          have hb2len : b.length = 2 := by omega
          rw [hb2len] at hy
          simp at hy
          rw [hb1v] at hy
          have hy250 : y = 250 := by
            have h2 := hy.symm
            injection h2
          rw [hy250] at hvalid
          simp [op_command.SE] at hvalid
        obtain ⟨b2, hb2⟩ := getB_isSome (l := b) (i := 2) (by omega)
        by_cases hsend : (acc.options.get_option b2).local_ = true ∧
            (acc.options.get_option b2).local_state = true ∧ 3 ≤ b.length - 2
        · have hd := slice?_eq (l := b) (a := 3) (b := b.length - 2)
            (by omega) (by omega)
          rw [← Option.isSome_iff_exists]
          simp [Parser.process_event, hlt, hx, hy, hvalid, hb2, hsend, hd]
        · rw [← Option.isSome_iff_exists]
          simp [Parser.process_event, hlt, hx, hy, hvalid, hb2, hsend]
      · rw [← Option.isSome_iff_exists]
        simp [Parser.process_event, hlt, hx, hy, hvalid]

theorem process_go_total {evs : List EventType} (hok : ∀ e ∈ evs, SegOK e) :
    ∀ acc, ∃ acc2, Parser.process_go acc evs = some acc2 := by
  induction evs with
  | nil => exact fun acc => ⟨acc, rfl⟩
  | cons ev rest ih =>
      intro acc
      obtain ⟨acc2, hstep⟩ := process_event_total acc ev (hok ev (by simp))
      obtain ⟨acc3, hrest⟩ := ih (fun e he => hok e (by simp [he])) acc2
      exact ⟨acc3, by simp [Parser.process_go, hstep, hrest]⟩

theorem process_total (p : Parser) : ∃ r, Parser.process p = some r := by
  obtain ⟨evs, hex, hok⟩ := extract_event_data_total p.buffer
  obtain ⟨acc2, hgo⟩ := process_go_total hok
    { event_list := [], options := p.options, buffer := [] }
  exact ⟨(acc2.event_list, { options := acc2.options, buffer := acc2.buffer }),
    by simp [Parser.process, hex, hgo]⟩

theorem receive_total (p : Parser) (data : List Nat) :
    ∃ r, Parser.receive p data = some r :=
  process_total { p with buffer := p.buffer ++ data }

theorem receiveSeq_total (p : Parser) (deliveries : List (List Nat)) :
    ∃ r, Parser.receiveSeq p deliveries = some r := by
  induction deliveries generalizing p with
  | nil => exact ⟨([], p), rfl⟩
  | cons d ds ih =>
      obtain ⟨r, hr⟩ := receive_total p d
      obtain ⟨r2, hr2⟩ := ih r.2
      exact ⟨(r.1 ++ r2.1, r2.2), by simp [Parser.receiveSeq, hr, hr2]⟩

/-! ### Claim theorems -/

/-- C3: for every initial compatibility table and every sequence of
deliveries of arbitrary byte lists (any values, any fragmentation),
`Parser.receive` never hits an out-of-bounds buffer access: the checked
model never returns `none`. -/
theorem claim3_receive_never_panics (t : CompatibilityTable)
    (deliveries : List (List Nat)) :
    (Parser.receiveSeq { options := t, buffer := [] } deliveries).isSome = true := by
  obtain ⟨r, hr⟩ := receiveSeq_total { options := t, buffer := [] } deliveries
  simp [hr]

/-- C10: a freshly constructed parser receiving the empty byte sequence
returns an empty event list and leaves both the compatibility table and the
accumulation buffer unchanged. -/
theorem claim10_receive_empty :
    Parser.receive { options := CompatibilityTable.new, buffer := [] } [] =
      some ([], { options := CompatibilityTable.new, buffer := [] }) := rfl

/-- C2 (failing input): the round trip `unescape_iac (escape_iac x)` fails
at `x = [255, 255]`: escaping yields four 255 bytes, and the unescape loop
never resets its `last` tracker after skipping, so all but the first byte of
the run are dropped and only `[255]` comes back. -/
theorem claim2_roundtrip_failure :
    Parser.unescape_iac (Parser.escape_iac [255, 255]) = [255] ∧
    ([255] : List Nat) ≠ [255, 255] := by decide

/-- C9 (failing input): `send_text` on the one-character text `A` returns
only the escaped text plus the `\r\n` terminator; the `[IAC, GA]` go-ahead
frame promised by the claim (and by the function's own documentation) is
not appended. -/
theorem claim9_send_text_no_goahead :
    Parser.send_text [65] = TelnetEvents.DataSend [65, 13, 10] ∧
    Parser.send_text [65] ≠ TelnetEvents.DataSend [65, 13, 10, 255, 249] := by
  decide

/-- C1 (counterexample): splitting the valid negotiation frame
`[IAC, WILL, 1]` into the non-empty pieces `[255]` and `[251, 1]` breaks
fragmentation invariance on a fresh parser: the split delivery yields a
`DataReceive` event for `[251, 1]` (the lone IAC tail is dropped), while the
unsplit delivery yields the `[IAC, DONT, 1]` refusal reply. -/
theorem claim1_fragmentation_counterexample :
    (Parser.receiveSeq { options := CompatibilityTable.new, buffer := [] }
        [[255], [251, 1]]).map Prod.fst =
      some [TelnetEvents.DataReceive [251, 1]] ∧
    (Parser.receiveSeq { options := CompatibilityTable.new, buffer := [] }
        [[255, 251, 1]]).map Prod.fst =
      some [TelnetEvents.DataSend [255, 254, 1]] ∧
    some [TelnetEvents.DataReceive [251, 1]] ≠
      some [TelnetEvents.DataSend [255, 254, 1]] := by decide

/-- C4 (counterexample): receiving `[IAC, WILL, 1]` with option 1 remotely
supported and already remotely enabled (mask 2 + 8 = 10) emits no event at
all, in particular no `Negotiation` event, refuting the claim that a
`Negotiation` event is always emitted for WILL. -/
theorem claim4_negotiation_counterexample :
    (Parser.receive { options := CompatibilityTable.from_options [(1, 10)], buffer := [] }
        [255, 251, 1]).map Prod.fst = some [] := by decide

/-- C5 (counterexample): a complete MCCP2 subnegotiation followed by a
trailing byte, delivered to a parser on which option 86 is not locally
supported and enabled, produces no events at all: neither the
`Subnegotiation` nor the `DecompressImmediate` event of the claim. -/
theorem claim5_mccp_counterexample :
    (Parser.receive { options := CompatibilityTable.new, buffer := [] }
        [255, 250, 86, 32, 255, 240, 99]).map Prod.fst = some [] := by decide

/-- C6 (counterexample): the 5-byte subnegotiation `[IAC, SB, 1, IAC, SE]`
has no content byte between header and trailer, yet with option 1 locally
supported and enabled (mask 1 + 4 = 5) a `Subnegotiation` event with empty
payload is emitted, refuting the at-least-one-content-byte condition. -/
theorem claim6_subneg_counterexample :
    (Parser.receive { options := CompatibilityTable.from_options [(1, 5)], buffer := [] }
        [255, 250, 1, 255, 240]).map Prod.fst =
      some [TelnetEvents.Subnegotiation 1 []] := by decide

/-- C7 (counterexample): with option 1 remotely supported (mask 2) and not
remotely enabled, `_do` returns the `[IAC, DO, 1]` frame but does not flip
`remote_state` in the table, refuting the claim that each helper flips the
corresponding enabled flag on a state-changing transition. -/
theorem claim7_outbound_counterexample :
    (Parser._do (CompatibilityTable.from_options [(1, 2)]) 1).1 =
      some (TelnetEvents.DataSend [255, 253, 1]) ∧
    ((Parser._do (CompatibilityTable.from_options [(1, 2)]) 1).2.get_option 1).remote_state
      = false := by decide

/-- C8 (counterexample): in the input `[65, 255, 255, 66]` the escaped
literal pair sits inside plain data, yet the returned events are only
`DataReceive [65]`: the pair and the following byte are dropped by the
negotiation stage (the segment `[255, 255, 66]` is read as a negotiation
with verb 255), so the pair never appears in any `DataReceive` output. -/
theorem claim8_escaped_pair_counterexample :
    (Parser.receive { options := CompatibilityTable.new, buffer := [] }
        [65, 255, 255, 66]).map Prod.fst = some [TelnetEvents.DataReceive [65]] := by
  decide

theorem from_u8_into_u8 (e : CompatibilityEntry) :
    CompatibilityEntry.from_u8 e.into_u8 = e := by
  rcases e with ⟨l, r, ls, rs⟩
  cases l <;> cases r <;> cases ls <;> cases rs <;> decide

theorem get_set_option (t : CompatibilityTable) (o : Nat) (e : CompatibilityEntry) :
    (t.set_option o e).get_option o = e := by
  simp [CompatibilityTable.set_option, CompatibilityTable.get_option, from_u8_into_u8]

/-- C7 (amended): `_will` and `_wont` return the negotiation frame and flip
`local_state` exactly on a state-changing transition; `_do` and `_dont`
perform the same flag checks and return the frame on a transition, but never
modify the table (no `set_option` call); all four return either nothing or
a `DataSend` event, never a `Negotiation` event. -/
theorem claim7_outbound_helpers (t : CompatibilityTable) (o : Nat) :
    (Parser._will t o =
      (if (t.get_option o).local_ = true ∧ (t.get_option o).local_state = false
       then (some (TelnetEvents.DataSend [255, 251, o]),
             t.set_option o { t.get_option o with local_state := true })
       else (none, t))) ∧
    (Parser._wont t o =
      (if (t.get_option o).local_state = true
       then (some (TelnetEvents.DataSend [255, 252, o]),
             t.set_option o { t.get_option o with local_state := false })
       else (none, t))) ∧
    (Parser._do t o =
      (if (t.get_option o).remote = true ∧ (t.get_option o).remote_state = false
       then (some (TelnetEvents.DataSend [255, 253, o]), t)
       else (none, t))) ∧
    (Parser._dont t o =
      (if (t.get_option o).remote_state = true
       then (some (TelnetEvents.DataSend [255, 254, o]), t)
       else (none, t))) ∧
    ((Parser._do t o).2 = t) ∧
    ((Parser._dont t o).2 = t) ∧
    (((Parser._will t o).2.get_option o).local_state =
      ((t.get_option o).local_ || (t.get_option o).local_state)) ∧
    (((Parser._wont t o).2.get_option o).local_state = false) := by
  refine ⟨?_, ?_, ?_, ?_, ?_, ?_, ?_, ?_⟩
  · by_cases h : (t.get_option o).local_ = true ∧ (t.get_option o).local_state = false
    · simp [Parser._will, Parser.negotiate, h]
    · simp [Parser._will, Parser.negotiate, h]
  · by_cases h : (t.get_option o).local_state = true
    · simp [Parser._wont, Parser.negotiate, h]
    · simp [Parser._wont, Parser.negotiate, h]
  · by_cases h : (t.get_option o).remote = true ∧ (t.get_option o).remote_state = false
    · simp [Parser._do, Parser.negotiate, h]
    · simp [Parser._do, Parser.negotiate, h]
  · by_cases h : (t.get_option o).remote_state = true
    · simp [Parser._dont, Parser.negotiate, h]
    · simp [Parser._dont, Parser.negotiate, h]
  · by_cases h : (t.get_option o).remote = true ∧ (t.get_option o).remote_state = false
    · simp [Parser._do, h]
    · simp [Parser._do, h]
  · by_cases h : (t.get_option o).remote_state = true
    · simp [Parser._dont, h]
    · simp [Parser._dont, h]
  · by_cases h : (t.get_option o).local_ = true ∧ (t.get_option o).local_state = false
    · simp [Parser._will, h, get_set_option]
    · simp only [Parser._will, h, if_neg, if_false]
      by_cases hl : (t.get_option o).local_ = true
      · have hs : (t.get_option o).local_state = true := by
          rcases Bool.eq_false_or_eq_true (t.get_option o).local_state with h2 | h2
          · exact h2
          · exact absurd ⟨hl, h2⟩ h
        simp [hl, hs]
      · simp at hl
        simp [hl]
  · by_cases h : (t.get_option o).local_state = true
    · simp [Parser._wont, h, get_set_option]
    · simp only [Parser._wont, h, if_neg, if_false]
      simp at h
      simp [h]

/-- C4 (amended): for a complete 3-byte negotiation segment, a
`Negotiation` event is always emitted for WONT and DONT; for WILL it is
emitted exactly when the option is remotely supported and not yet remotely
enabled, and for DO exactly when locally supported and not yet locally
enabled; in the unsupported WILL/DO branch only the refusal `DataSend` is
emitted, and in the supported-and-already-enabled WILL/DO branch nothing at
all is emitted. -/
theorem claim4_negotiation_events (t : CompatibilityTable) (o : Nat) :
    (Parser.receive { options := t, buffer := [] } [255, 251, o] =
      some (if (t.get_option o).remote = true ∧ (t.get_option o).remote_state = false
        then ([TelnetEvents.DataSend [255, 253, o], TelnetEvents.Negotiation 251 o],
          { options := t.set_option o { t.get_option o with remote_state := true },
            buffer := [] })
        else if (t.get_option o).remote = false
        then ([TelnetEvents.DataSend [255, 254, o]], { options := t, buffer := [] })
        else ([], { options := t, buffer := [] }))) ∧
    (Parser.receive { options := t, buffer := [] } [255, 252, o] =
      some ((if (t.get_option o).remote_state = true
          then [TelnetEvents.DataSend [255, 254, o]] else []) ++
            [TelnetEvents.Negotiation 252 o],
        { options := if (t.get_option o).remote_state = true
            then t.set_option o { t.get_option o with remote_state := false } else t,
          buffer := [] })) ∧
    (Parser.receive { options := t, buffer := [] } [255, 253, o] =
      some (if (t.get_option o).local_ = true ∧ (t.get_option o).local_state = false
        then ([TelnetEvents.DataSend [255, 251, o], TelnetEvents.Negotiation 253 o],
          { options := t.set_option o
              { t.get_option o with local_state := true, remote_state := true },
            buffer := [] })
        else if (t.get_option o).local_ = false
        then ([TelnetEvents.DataSend [255, 252, o]], { options := t, buffer := [] })
        else ([], { options := t, buffer := [] }))) ∧
    (Parser.receive { options := t, buffer := [] } [255, 254, o] =
      some ((if (t.get_option o).local_state = true
          then [TelnetEvents.DataSend [255, 252, o]] else []) ++
            [TelnetEvents.Negotiation 254 o],
        { options := if (t.get_option o).local_state = true
            then t.set_option o { t.get_option o with local_state := false } else t,
          buffer := [] })) := by
  refine ⟨?_, ?_, ?_, ?_⟩
  · have hex : Parser.extract_event_data [255, 251, o] =
        some [EventType.Neg [255, 251, o]] := rfl
    by_cases h1 : (t.get_option o).remote = true ∧ (t.get_option o).remote_state = false
    · simp [Parser.receive, Parser.process, hex, Parser.process_go,
        Parser.process_event, getB, h1]
    · by_cases h2 : (t.get_option o).remote = false
      · simp [Parser.receive, Parser.process, hex, Parser.process_go,
          Parser.process_event, getB, h1, h2]
      · have hr : (t.get_option o).remote = true := by
          cases h3 : (t.get_option o).remote with
          | false => exact absurd h3 h2
          | true => rfl
        have hrs : (t.get_option o).remote_state = true := by
          cases h3 : (t.get_option o).remote_state with
          | false => exact absurd ⟨hr, h3⟩ h1
          | true => rfl
        simp [Parser.receive, Parser.process, hex, Parser.process_go,
          Parser.process_event, getB, h1, h2, hrs]
  · have hex : Parser.extract_event_data [255, 252, o] =
        some [EventType.Neg [255, 252, o]] := rfl
    by_cases h1 : (t.get_option o).remote_state = true
    · simp [Parser.receive, Parser.process, hex, Parser.process_go,
        Parser.process_event, getB, h1]
    · simp [Parser.receive, Parser.process, hex, Parser.process_go,
        Parser.process_event, getB, h1]
  · have hex : Parser.extract_event_data [255, 253, o] =
        some [EventType.Neg [255, 253, o]] := rfl
    by_cases h1 : (t.get_option o).local_ = true ∧ (t.get_option o).local_state = false
    · simp [Parser.receive, Parser.process, hex, Parser.process_go,
        Parser.process_event, getB, h1]
    · by_cases h2 : (t.get_option o).local_ = false
      · simp [Parser.receive, Parser.process, hex, Parser.process_go,
          Parser.process_event, getB, h1, h2]
      · have hl : (t.get_option o).local_ = true := by
          cases h3 : (t.get_option o).local_ with
          | false => exact absurd h3 h2
          | true => rfl
        have hls : (t.get_option o).local_state = true := by
          cases h3 : (t.get_option o).local_state with
          | false => exact absurd ⟨hl, h3⟩ h1
          | true => rfl
        simp [Parser.receive, Parser.process, hex, Parser.process_go,
          Parser.process_event, getB, h1, h2, hls]
  · have hex : Parser.extract_event_data [255, 254, o] =
        some [EventType.Neg [255, 254, o]] := rfl
    by_cases h1 : (t.get_option o).local_state = true
    · simp [Parser.receive, Parser.process, hex, Parser.process_go,
        Parser.process_event, getB, h1]
    · simp [Parser.receive, Parser.process, hex, Parser.process_go,
        Parser.process_event, getB, h1]

/-- C8 (amended): an escaped literal pair `0xFF 0xFF` inside plain data
produces no event at the pair boundary during segmentation, but the pair is
left at the start of a new IAC-led segment rather than being merged into
the plain data: the negotiation stage then reads that segment as an IAC
sequence (here a 3-byte negotiation with verb 255, which is dropped), so
the two bytes never appear in any `DataReceive` event. -/
theorem claim8_escaped_pair (t : CompatibilityTable) (a b : Nat)
    (ha : a ≠ 255) (hb : b ≠ 255) :
    Parser.receive { options := t, buffer := [] } [a, 255, 255, b] =
      some ([TelnetEvents.DataReceive [a]], { options := t, buffer := [] }) := by
  simp [Parser.receive, Parser.process, Parser.extract_event_data, Parser.extract_go,
    Parser.extract_step, slice?, Parser.process_go, Parser.process_event, getB, ha, hb]

/-- Witness for `claim8_escaped_pair` at `a = 65`, `b = 66` on a fresh
parser. -/
theorem claim8_escaped_pair_witness :
    Parser.receive { options := CompatibilityTable.new, buffer := [] }
        [65, 255, 255, 66] =
      some ([TelnetEvents.DataReceive [65]],
        { options := CompatibilityTable.new, buffer := [] }) :=
  claim8_escaped_pair CompatibilityTable.new 65 66 (by decide) (by decide)

/-! ### Scanning a subnegotiation frame -/

theorem extract_go_stop {buf : List Nat} {i : Nat} {rest : List Nat}
    {a : ExtractAcc} (h : a.stop = true) :
    Parser.extract_go buf i rest a = some a := by
  cases rest <;> simp [Parser.extract_go, h]

theorem extract_go_append (buf r1 r2 : List Nat) :
    ∀ (i : Nat) (a : ExtractAcc),
    Parser.extract_go buf i (r1 ++ r2) a =
      (Parser.extract_go buf i r1 a).bind
        (fun a2 => Parser.extract_go buf (i + r1.length) r2 a2) := by
  induction r1 with
  | nil => intro i a; simp [Parser.extract_go]
  | cons v r1 ih =>
      intro i a
      by_cases h : a.stop = true
      · simp [Parser.extract_go, h, extract_go_stop]
      · have harith : i + (r1.length + 1) = i + 1 + r1.length := by omega
        simp only [List.cons_append, Parser.extract_go, h, if_false, List.length_cons,
          harith, Bool.false_eq_true]
        cases hstep : Parser.extract_step buf i v a with
        | none => simp
        | some a2 => simp [ih (i + 1) a2]

theorem getB_mem {l : List Nat} {i v : Nat} (h : getB l i = some v) : v ∈ l := by
  induction l generalizing i with
  | nil => simp [getB] at h
  | cons b rest ih =>
      cases i with
      | zero =>
          simp [getB] at h
          simp [h]
      | succ j =>
          have h2 := ih (i := j) h
          simp [h2]

theorem subnegFrame_length (opt : Nat) (P : List Nat) :
    (subnegFrame opt P).length = P.length + 5 := by
  simp [subnegFrame]

theorem subnegFrame_getB_low (opt : Nat) (P : List Nat) :
    getB (subnegFrame opt P) 0 = some 255 ∧
    getB (subnegFrame opt P) 1 = some 250 ∧
    getB (subnegFrame opt P) 2 = some opt := ⟨rfl, rfl, rfl⟩

theorem subnegFrame_getB_hi (opt : Nat) (P : List Nat) :
    getB (subnegFrame opt P) (P.length + 3) = some 255 ∧
    getB (subnegFrame opt P) (P.length + 4) = some 240 := by
  constructor
  · show getB (P ++ [255, 240]) P.length = some 255
    rw [getB_append_right (le_refl _)]
    simp [getB]
  · show getB (P ++ [255, 240]) (P.length + 1) = some 240
    rw [getB_append_right (by omega)]
    simp [getB]

theorem subnegFrame_getB_255 {opt : Nat} {P : List Nat} (hopt : opt ≠ 255)
    (hP : ∀ x ∈ P, x ≠ 255) {j : Nat}
    (hj : getB (subnegFrame opt P) j = some 255) :
    j = 0 ∨ j = P.length + 3 := by
  match j with
  | 0 => exact Or.inl rfl
  | 1 => simp [subnegFrame, getB] at hj
  | 2 =>
      simp [subnegFrame, getB] at hj
      exact absurd hj hopt
  | j + 3 =>
      have hj2 : getB (P ++ [255, 240]) j = some 255 := hj
      by_cases hlt : j < P.length
      · rw [getB_append_left hlt] at hj2
        exact absurd (hP 255 (getB_mem hj2)) (by simp)
      · rw [getB_append_right (by omega)] at hj2
        match heq : j - P.length with
        | 0 =>
            right
            omega
        | 1 => rw [heq] at hj2; simp [getB] at hj2
        | n + 2 => rw [heq] at hj2; simp [getB] at hj2

theorem extract_go_sub_skip (buf : List Nat) :
    ∀ (rest : List Nat) (i : Nat) (a : ExtractAcc),
    a.st = ScanState.Sub → a.stop = false → a.cmd_begin = 0 →
    getB buf 0 = some 255 → getB buf 1 = some 250 →
    2 ≤ i → i + rest.length ≤ buf.length →
    (∀ k, k < rest.length → getB buf (i + k) = getB rest k) →
    (∀ j, i ≤ j → j < i + rest.length → 4 ≤ j →
      ¬(getB buf j = some 240 ∧ getB buf (j - 1) = some 255)) →
    Parser.extract_go buf i rest a = some a := by
  intro rest
  induction rest with
  | nil => intro i a _ _ _ _ _ _ _ _ _; rfl
  | cons v r ih =>
      intro i a hst hstop hcb hb0 hb1 hi hlen hbytes hnm
      have hb0a : getB buf a.cmd_begin = some 255 := by rw [hcb]; exact hb0
      have hb1a : getB buf (a.cmd_begin + 1) = some 250 := by rw [hcb]; exact hb1
      have hi0 : ¬ (i = 0) := by omega
      obtain ⟨w, hw⟩ := getB_isSome (l := buf) (i := i - 1)
        (by simp at hlen; omega)
      have hv : getB buf i = some v := by
        have h2 := hbytes 0 (by simp)
        simpa using h2
      have hcond : ¬(4 ≤ i - a.cmd_begin ∧
          ((255 : Nat) = op_command.IAC ∧ (250 : Nat) = op_command.SB) ∧
          (v = op_command.SE ∧ w = op_command.IAC)) := by
        rintro ⟨hge, _, hvse, hwiac⟩
        rw [hcb] at hge
        refine hnm i (le_refl _) (by simp) (by omega) ⟨?_, ?_⟩
        · rw [hv, hvse]
        · rw [hw, hwiac]
      have hstep : Parser.extract_step buf i v a = some a := by
        simp only [Parser.extract_step, hst, hb0a, hb1a, hi0, hw]
        simp [hcond]
        intro h1 h2 h3
        exact absurd ⟨h1, ⟨rfl, rfl⟩, h2, h3⟩ hcond
      have hrest : Parser.extract_go buf (i + 1) r a = some a := by
        refine ih (i + 1) a hst hstop hcb hb0 hb1 (by omega)
          (by simp at hlen ⊢; omega) ?_ ?_
        · intro k hk
          have h2 := hbytes (k + 1) (by simp; omega)
          have harith : i + (k + 1) = i + 1 + k := by omega
          rw [harith] at h2
          simpa using h2
        · intro j hj1 hj2 hj4
          exact hnm j (by omega) (by simp; omega) hj4
      simp [Parser.extract_go, hstop, hstep, hrest]

theorem extract_subnegFrame_prefix (opt : Nat) (P : List Nat) (k : Nat)
    (hopt255 : opt ≠ 255) (hP : ∀ x ∈ P, x ≠ 255)
    (h2 : 2 ≤ k) (hk : k < (subnegFrame opt P).length) :
    Parser.extract_event_data ((subnegFrame opt P).take k) =
      some [EventType.SubNegotiation ((subnegFrame opt P).take k) none] := by
  have hlenM : (subnegFrame opt P).length = P.length + 5 := subnegFrame_length opt P
  have hlenb : ((subnegFrame opt P).take k).length = k := by
    rw [List.length_take]; omega
  have hb0 : getB ((subnegFrame opt P).take k) 0 = some 255 := by
    rw [getB_take (by omega)]
    exact (subnegFrame_getB_low opt P).1
  have hb1 : getB ((subnegFrame opt P).take k) 1 = some 250 := by
    rw [getB_take (by omega)]
    exact (subnegFrame_getB_low opt P).2.1
  obtain ⟨k2, rfl⟩ : ∃ k2, k = k2 + 2 := ⟨k - 2, by omega⟩
  have hk2 : k2 ≤ P.length + 2 := by omega
  have hrestlen : ((opt :: (P ++ [255, 240])).take k2).length = k2 := by
    rw [List.length_take]
    simp
    omega
  have hskip : Parser.extract_go ((subnegFrame opt P).take (k2 + 2)) 2
      ((opt :: (P ++ [255, 240])).take k2)
      { events := [], cmd_begin := 0, st := ScanState.Sub, stop := false } =
      some { events := [], cmd_begin := 0, st := ScanState.Sub, stop := false } := by
    refine extract_go_sub_skip _ _ 2 _ rfl rfl rfl hb0 hb1 (le_refl _)
      (by rw [hrestlen, hlenb]; omega) ?_ ?_
    · intro j hj
      rw [hrestlen] at hj
      have h1 : (2 : Nat) + j = j + 2 := by omega
      rw [h1]
      show getB ((opt :: (P ++ [255, 240])).take k2) j =
        getB ((opt :: (P ++ [255, 240])).take k2) j
      rfl
    · intro j hj1 hj2 hj4
      rintro ⟨hj240, hj255⟩
      rw [hrestlen] at hj2
      rw [getB_take (by omega)] at hj255
      rcases subnegFrame_getB_255 hopt255 hP hj255 with h0 | hhi
      · omega
      · omega
  have hgo : Parser.extract_go ((subnegFrame opt P).take (k2 + 2)) 0
      ((subnegFrame opt P).take (k2 + 2))
      { events := [], cmd_begin := 0, st := ScanState.Normal, stop := false } =
      some { events := [], cmd_begin := 0, st := ScanState.Sub, stop := false } := by
    have hunfold : Parser.extract_go ((subnegFrame opt P).take (k2 + 2)) 0
        ((subnegFrame opt P).take (k2 + 2))
        { events := [], cmd_begin := 0, st := ScanState.Normal, stop := false } =
        Parser.extract_go ((subnegFrame opt P).take (k2 + 2)) 2
          ((opt :: (P ++ [255, 240])).take k2)
          { events := [], cmd_begin := 0, st := ScanState.Sub, stop := false } := rfl
    rw [hunfold, hskip]
  have hfin : ¬ (((subnegFrame opt P).take (k2 + 2)).length <
      ((subnegFrame opt P).take (k2 + 2)).length) := by omega
  have hs : slice? ((subnegFrame opt P).take (k2 + 2)) 0 (k2 + 2) =
      some ((subnegFrame opt P).take (k2 + 2)) := by
    rw [slice?_eq (Nat.zero_le _) (by omega)]
    simp only [List.drop_zero, Nat.sub_zero, Option.some.injEq]
    exact List.take_of_length_le (by omega)
  unfold Parser.extract_event_data
  rw [hgo]
  simp [hlenb, hs]

theorem extract_subnegFrame_mccp (opt : Nat) (P T : List Nat)
    (hmccp : opt = op_option.MCCP2 ∨ opt = op_option.MCCP3)
    (hP : ∀ x ∈ P, x ≠ 255) :
    Parser.extract_event_data (subnegFrame opt P ++ T) =
      some [EventType.SubNegotiation (subnegFrame opt P) (some T)] := by
  have hopt255 : opt ≠ 255 := by
    rcases hmccp with h | h <;> simp [h, op_option.MCCP2, op_option.MCCP3]
  have hlenM : (subnegFrame opt P).length = P.length + 5 := subnegFrame_length opt P
  have hlenbuf : (subnegFrame opt P ++ T).length = P.length + 5 + T.length := by
    simp [hlenM]
  have hb0 : getB (subnegFrame opt P ++ T) 0 = some 255 := by
    rw [getB_append_left (by omega)]; exact (subnegFrame_getB_low opt P).1
  have hb1 : getB (subnegFrame opt P ++ T) 1 = some 250 := by
    rw [getB_append_left (by omega)]; exact (subnegFrame_getB_low opt P).2.1
  have hb2 : getB (subnegFrame opt P ++ T) 2 = some opt := by
    rw [getB_append_left (by omega)]; exact (subnegFrame_getB_low opt P).2.2
  have hbp3 : getB (subnegFrame opt P ++ T) (P.length + 3) = some 255 := by
    rw [getB_append_left (by omega)]; exact (subnegFrame_getB_hi opt P).1
  have hbp41 : getB (subnegFrame opt P ++ T) (P.length + 4 - 1) = some 255 := by
    have h4 : P.length + 4 - 1 = P.length + 3 := by omega
    rw [h4]; exact hbp3
  have hR1len : (opt :: (P ++ [255])).length = P.length + 2 := by simp
  have hPTlen : ((P ++ [255, 240]) ++ T).length = P.length + 2 + T.length := by
    simp
    omega
  have hskip : Parser.extract_go (subnegFrame opt P ++ T) 2 (opt :: (P ++ [255]))
      { events := [], cmd_begin := 0, st := ScanState.Sub, stop := false } =
      some { events := [], cmd_begin := 0, st := ScanState.Sub, stop := false } := by
    refine extract_go_sub_skip _ _ 2 _ rfl rfl rfl hb0 hb1 (le_refl _)
      (by rw [hR1len, hlenbuf]; omega) ?_ ?_
    · intro j hj
      rw [hR1len] at hj
      have h1 : (2 : Nat) + j = j + 2 := by omega
      rw [h1]
      show getB (opt :: ((P ++ [255, 240]) ++ T)) j = getB (opt :: (P ++ [255])) j
      cases j with
      | zero => rfl
      | succ i =>
          show getB ((P ++ [255, 240]) ++ T) i = getB (P ++ [255]) i
          have hilen : i < P.length + 1 := by omega
          by_cases hiP : i < P.length
          · rw [getB_append_left (show i < (P ++ [255, 240]).length by simp; omega),
              getB_append_left hiP, getB_append_left hiP]
          · have hieq : i = P.length := by omega
            subst hieq
            rw [getB_append_left (show P.length < (P ++ [255, 240]).length by simp),
              getB_append_right (le_refl _), getB_append_right (le_refl _)]
            simp [getB]
    · intro j hj1 hj2 hj4
      rintro ⟨hj240, hj255⟩
      rw [hR1len] at hj2
      rw [getB_append_left (by omega)] at hj255
      rcases subnegFrame_getB_255 hopt255 hP hj255 with h0 | hhi
      · omega
      · omega
  have hs : slice? (subnegFrame opt P ++ T) 0 (P.length + 5) =
      some (subnegFrame opt P) := by
    rw [slice?_eq (Nat.zero_le _) (by omega)]
    simp only [List.drop_zero, Nat.sub_zero, Option.some.injEq]
    have h5 : P.length + 5 = (subnegFrame opt P).length := by omega
    rw [h5]
    exact List.take_left _ _
  have hr : slice? (subnegFrame opt P ++ T) (P.length + 5)
      (subnegFrame opt P ++ T).length = some T := by
    rw [slice?_eq (by omega) (le_refl _)]
    simp only [Option.some.injEq]
    have hd : (subnegFrame opt P ++ T).drop (P.length + 5) = T := by
      rw [show P.length + 5 = (subnegFrame opt P).length from hlenM.symm]
      exact List.drop_left _ _
    have ht : (subnegFrame opt P ++ T).length - (P.length + 5) = T.length := by
      rw [hlenbuf]; omega
    rw [hd, ht]
    exact List.take_length T
  have hr2 : slice? (subnegFrame opt P ++ T) (P.length + 4 + 1)
      (P.length + 5 + T.length) = some T := by
    have h45 : P.length + 4 + 1 = P.length + 5 := by omega
    rw [h45, ← hlenbuf]
    exact hr
  have hi0 : ¬ (P.length + 4 = 0) := by omega
  have hge : 4 ≤ P.length + 4 := by omega
  have hge0 : 4 ≤ P.length + 4 - 0 := by omega
  have hstep : Parser.extract_step (subnegFrame opt P ++ T) (P.length + 4) 240
      { events := [], cmd_begin := 0, st := ScanState.Sub, stop := false } =
      some { events := [EventType.SubNegotiation (subnegFrame opt P) (some T)],
             cmd_begin := (subnegFrame opt P ++ T).length, st := ScanState.Sub,
             stop := true } := by
    simp [Parser.extract_step, hb0, hb1, hb2, hbp3, hbp41, hi0, hge, hge0,
      hmccp, hs, hr, hr2, hlenbuf]
  have hgotail : Parser.extract_go (subnegFrame opt P ++ T) (P.length + 4)
      (240 :: T) { events := [], cmd_begin := 0, st := ScanState.Sub, stop := false } =
      some { events := [EventType.SubNegotiation (subnegFrame opt P) (some T)],
             cmd_begin := (subnegFrame opt P ++ T).length, st := ScanState.Sub,
             stop := true } := by
    simp only [Parser.extract_go, hstep, Option.some_bind, Bool.false_eq_true,
      if_false]
    exact extract_go_stop rfl
  have hRsplit : (opt :: ((P ++ [255, 240]) ++ T)) =
      (opt :: (P ++ [255])) ++ (240 :: T) := by simp
  have hgo : Parser.extract_go (subnegFrame opt P ++ T) 0 (subnegFrame opt P ++ T)
      { events := [], cmd_begin := 0, st := ScanState.Normal, stop := false } =
      some { events := [EventType.SubNegotiation (subnegFrame opt P) (some T)],
             cmd_begin := (subnegFrame opt P ++ T).length, st := ScanState.Sub,
             stop := true } := by
    have hunfold : Parser.extract_go (subnegFrame opt P ++ T) 0
        (subnegFrame opt P ++ T)
        { events := [], cmd_begin := 0, st := ScanState.Normal, stop := false } =
        Parser.extract_go (subnegFrame opt P ++ T) 2
          (opt :: ((P ++ [255, 240]) ++ T))
          { events := [], cmd_begin := 0, st := ScanState.Sub, stop := false } := rfl
    rw [hunfold, hRsplit, extract_go_append, hskip]
    simp only [Option.some_bind]
    have h7 : 2 + (opt :: (P ++ [255])).length = P.length + 4 := by
      rw [hR1len]
      omega
    rw [h7]
    exact hgotail
  unfold Parser.extract_event_data
  rw [hgo]
  simp

theorem extract_subnegFrame_plain (opt : Nat) (P : List Nat)
    (hopt255 : opt ≠ 255)
    (hnm : ¬ (opt = op_option.MCCP2 ∨ opt = op_option.MCCP3))
    (hP : ∀ x ∈ P, x ≠ 255) :
    Parser.extract_event_data (subnegFrame opt P) =
      some [EventType.SubNegotiation (subnegFrame opt P) none] := by
  have hlenM : (subnegFrame opt P).length = P.length + 5 := subnegFrame_length opt P
  have hb0 : getB (subnegFrame opt P) 0 = some 255 := (subnegFrame_getB_low opt P).1
  have hb1 : getB (subnegFrame opt P) 1 = some 250 := (subnegFrame_getB_low opt P).2.1
  have hb2 : getB (subnegFrame opt P) 2 = some opt := (subnegFrame_getB_low opt P).2.2
  have hbp3 : getB (subnegFrame opt P) (P.length + 3) = some 255 :=
    (subnegFrame_getB_hi opt P).1
  have hbp41 : getB (subnegFrame opt P) (P.length + 4 - 1) = some 255 := by
    have h4 : P.length + 4 - 1 = P.length + 3 := by omega
    rw [h4]; exact hbp3
  have hR1len : (opt :: (P ++ [255])).length = P.length + 2 := by simp
  have hskip : Parser.extract_go (subnegFrame opt P) 2 (opt :: (P ++ [255]))
      { events := [], cmd_begin := 0, st := ScanState.Sub, stop := false } =
      some { events := [], cmd_begin := 0, st := ScanState.Sub, stop := false } := by
    refine extract_go_sub_skip _ _ 2 _ rfl rfl rfl hb0 hb1 (le_refl _)
      (by rw [hR1len, hlenM]; omega) ?_ ?_
    · intro j hj
      rw [hR1len] at hj
      have h1 : (2 : Nat) + j = j + 2 := by omega
      rw [h1]
      show getB (opt :: (P ++ [255, 240])) j = getB (opt :: (P ++ [255])) j
      cases j with
      | zero => rfl
      | succ i =>
          show getB (P ++ [255, 240]) i = getB (P ++ [255]) i
          have hilen : i < P.length + 1 := by omega
          by_cases hiP : i < P.length
          · rw [getB_append_left hiP, getB_append_left hiP]
          · have hieq : i = P.length := by omega
            subst hieq
            rw [getB_append_right (le_refl _), getB_append_right (le_refl _)]
            simp [getB]
    · intro j hj1 hj2 hj4
      rintro ⟨hj240, hj255⟩
      rw [hR1len] at hj2
      rcases subnegFrame_getB_255 hopt255 hP hj255 with h0 | hhi
      · omega
      · omega
  have hs : slice? (subnegFrame opt P) 0 (P.length + 5) =
      some (subnegFrame opt P) := by
    rw [slice?_eq (Nat.zero_le _) (by omega)]
    simp only [List.drop_zero, Nat.sub_zero, Option.some.injEq]
    exact List.take_of_length_le (by omega)
  have hi0 : ¬ (P.length + 4 = 0) := by omega
  have hge : 4 ≤ P.length + 4 := by omega
  have hge0 : 4 ≤ P.length + 4 - 0 := by omega
  have hstep : Parser.extract_step (subnegFrame opt P) (P.length + 4) 240
      { events := [], cmd_begin := 0, st := ScanState.Sub, stop := false } =
      some { events := [EventType.SubNegotiation (subnegFrame opt P) none],
             cmd_begin := P.length + 4 + 1, st := ScanState.Normal,
             stop := false } := by
    simp [Parser.extract_step, hb0, hb1, hb2, hbp3, hbp41, hi0, hge, hge0,
      hnm, hs]
  have hgotail : Parser.extract_go (subnegFrame opt P) (P.length + 4) [240]
      { events := [], cmd_begin := 0, st := ScanState.Sub, stop := false } =
      some { events := [EventType.SubNegotiation (subnegFrame opt P) none],
             cmd_begin := P.length + 4 + 1, st := ScanState.Normal,
             stop := false } := by
    simp [Parser.extract_go, hstep]
  have hRsplit : (opt :: (P ++ [255, 240])) =
      (opt :: (P ++ [255])) ++ [240] := by simp
  have hgo : Parser.extract_go (subnegFrame opt P) 0 (subnegFrame opt P)
      { events := [], cmd_begin := 0, st := ScanState.Normal, stop := false } =
      some { events := [EventType.SubNegotiation (subnegFrame opt P) none],
             cmd_begin := P.length + 4 + 1, st := ScanState.Normal,
             stop := false } := by
    have hunfold : Parser.extract_go (subnegFrame opt P) 0 (subnegFrame opt P)
        { events := [], cmd_begin := 0, st := ScanState.Normal, stop := false } =
        Parser.extract_go (subnegFrame opt P) 2 (opt :: (P ++ [255, 240]))
          { events := [], cmd_begin := 0, st := ScanState.Sub, stop := false } := rfl
    rw [hunfold, hRsplit, extract_go_append, hskip]
    simp only [Option.some_bind]
    have h7 : 2 + (opt :: (P ++ [255])).length = P.length + 4 := by
      rw [hR1len]
      omega
    rw [h7]
    exact hgotail
  have hfin : ¬ (P.length + 4 + 1 < (subnegFrame opt P).length) := by omega
  unfold Parser.extract_event_data
  rw [hgo]
  simp [hfin]

theorem process_event_subnegFrame (acc : ProcessAcc) (opt : Nat) (P : List Nat)
    (rem : Option (List Nat)) :
    Parser.process_event acc (EventType.SubNegotiation (subnegFrame opt P) rem) =
      some (if (acc.options.get_option opt).local_ = true ∧
              (acc.options.get_option opt).local_state = true
        then { acc with event_list := acc.event_list ++
                [TelnetEvents.Subnegotiation opt P] ++
                (match rem with
                 | some rbuf => [TelnetEvents.DecompressImmediate rbuf]
                 | none => []) }
        else acc) := by
  have hlenM : (subnegFrame opt P).length = P.length + 5 := subnegFrame_length opt P
  have hlt : ¬ ((subnegFrame opt P).length < 2) := by omega
  have hx3 : getB (subnegFrame opt P) (P.length + 3) = some 255 :=
    (subnegFrame_getB_hi opt P).1
  have hy4 : getB (subnegFrame opt P) (P.length + 4) = some 240 :=
    (subnegFrame_getB_hi opt P).2
  have hb2 : getB (subnegFrame opt P) 2 = some opt := (subnegFrame_getB_low opt P).2.2
  have h32 : 3 ≤ (subnegFrame opt P).length - 2 := by omega
  have h32b : 3 ≤ P.length + 3 := by omega
  have hd3 : slice? (subnegFrame opt P) 3 (P.length + 3) = some P := by
    rw [slice?_eq (by omega) (by omega)]
    simp only [Option.some.injEq]
    have h4 : P.length + 3 - 3 = P.length := by omega
    rw [h4]
    show (P ++ [255, 240]).take P.length = P
    exact List.take_left _ _
  by_cases hA : (acc.options.get_option opt).local_ = true
  · by_cases hB : (acc.options.get_option opt).local_state = true
    · simp [Parser.process_event, hlt, hx3, hy4, hb2, h32, h32b, hd3, hA, hB, hlenM]
    · simp [Parser.process_event, hlt, hx3, hy4, hb2, h32, h32b, hd3, hA, hB, hlenM]
  · simp [Parser.process_event, hlt, hx3, hy4, hb2, h32, h32b, hd3, hA, hlenM]

theorem process_event_subnegFrame_prefix (acc : ProcessAcc) (opt : Nat)
    (P : List Nat) (k : Nat) (hopt255 : opt ≠ 255) (hP : ∀ x ∈ P, x ≠ 255)
    (h2 : 2 ≤ k) (hk : k < (subnegFrame opt P).length) :
    Parser.process_event acc
        (EventType.SubNegotiation ((subnegFrame opt P).take k) none) =
      some { acc with buffer := acc.buffer ++ (subnegFrame opt P).take k } := by
  have hlenM : (subnegFrame opt P).length = P.length + 5 := subnegFrame_length opt P
  have hlenb : ((subnegFrame opt P).take k).length = k := by
    rw [List.length_take]; omega
  have hlt : ¬ (((subnegFrame opt P).take k).length < 2) := by omega
  obtain ⟨x, hx⟩ := getB_isSome (l := (subnegFrame opt P).take k)
    (i := ((subnegFrame opt P).take k).length - 2) (by omega)
  obtain ⟨y, hy⟩ := getB_isSome (l := (subnegFrame opt P).take k)
    (i := ((subnegFrame opt P).take k).length - 1) (by omega)
  have hxM : getB (subnegFrame opt P) (k - 2) = some x := by
    rw [← getB_take (l := subnegFrame opt P) (n := k) (by omega)]
    rw [← hx, hlenb]
  have hyM : getB (subnegFrame opt P) (k - 1) = some y := by
    rw [← getB_take (l := subnegFrame opt P) (n := k) (by omega)]
    rw [← hy, hlenb]
  have hvalid : ¬ (x = op_command.IAC ∧ y = op_command.SE) := by
    rintro ⟨rfl, rfl⟩
    rcases subnegFrame_getB_255 hopt255 hP hxM with h0 | hhi
    · have hk2 : k = 2 := by omega
      rw [hk2] at hyM
      have hy1 : getB (subnegFrame opt P) 1 = some 250 :=
        (subnegFrame_getB_low opt P).2.1
      rw [hy1] at hyM
      exact absurd (Option.some.inj hyM) (by decide)
    · omega
  rw [hlenb] at hx hy
  have hmin : k ⊓ (subnegFrame opt P).length = k := Nat.min_eq_left (le_of_lt hk)
  have h2len : 2 ≤ (subnegFrame opt P).length := by omega
  simp [Parser.process_event, hmin, hx, hy, hvalid, hlenb, h2, h2len]

/-- C5 (amended): the MCCP hand-off behaves as claimed provided the MCCP
option is locally supported and locally enabled in the table (the claim
omits this precondition): a complete MCCP2/MCCP3 subnegotiation followed by
arbitrary trailing bytes in one `receive` call yields the `Subnegotiation`
event followed by exactly one `DecompressImmediate` event carrying exactly
the trailing bytes, and the accumulation buffer is empty afterwards. -/
theorem claim5_mccp_handoff (t : CompatibilityTable) (opt : Nat) (P T : List Nat)
    (hmccp : opt = op_option.MCCP2 ∨ opt = op_option.MCCP3)
    (hloc : (t.get_option opt).local_ = true)
    (hst : (t.get_option opt).local_state = true)
    (hP : ∀ x ∈ P, x ≠ 255) :
    Parser.receive { options := t, buffer := [] } (subnegFrame opt P ++ T) =
      some ([TelnetEvents.Subnegotiation opt P, TelnetEvents.DecompressImmediate T],
            { options := t, buffer := [] }) := by
  simp [Parser.receive, Parser.process, extract_subnegFrame_mccp opt P T hmccp hP,
    Parser.process_go, process_event_subnegFrame, hloc, hst]

/-- Witness for `claim5_mccp_handoff`: option 86 with mask 5 (locally
supported and enabled), payload `[32]`, trailing byte `[99]`. -/
theorem claim5_mccp_handoff_witness :
    Parser.receive
        { options := CompatibilityTable.from_options [(86, 5)], buffer := [] }
        (subnegFrame 86 [32] ++ [99]) =
      some ([TelnetEvents.Subnegotiation 86 [32],
             TelnetEvents.DecompressImmediate [99]],
            { options := CompatibilityTable.from_options [(86, 5)], buffer := [] }) :=
  claim5_mccp_handoff _ 86 [32] [99] (Or.inl rfl) (by decide) (by decide) (by decide)

/-- C6 (amended): a `Subnegotiation` event is emitted exactly for a segment
`[IAC, SB, opt] ++ payload ++ [IAC, SE]` of total length at least 5 — the
payload may be empty, i.e. zero content bytes are allowed — when the option
is locally supported and enabled (otherwise the well-terminated segment is
silently dropped); a segment cut short before its `[IAC, SE]` trailer is
appended back onto the accumulation buffer rather than discarded. -/
theorem claim6_subneg_validation (t : CompatibilityTable) (opt : Nat)
    (P : List Nat) (hopt255 : opt ≠ 255)
    (hnm : ¬ (opt = op_option.MCCP2 ∨ opt = op_option.MCCP3))
    (hP : ∀ x ∈ P, x ≠ 255) :
    (Parser.receive { options := t, buffer := [] } (subnegFrame opt P) =
      some ((if (t.get_option opt).local_ = true ∧
               (t.get_option opt).local_state = true
             then [TelnetEvents.Subnegotiation opt P] else []),
            { options := t, buffer := [] })) ∧
    (∀ k, 2 ≤ k → k < (subnegFrame opt P).length →
      Parser.receive { options := t, buffer := [] } ((subnegFrame opt P).take k) =
        some ([], { options := t, buffer := (subnegFrame opt P).take k })) := by
  constructor
  · by_cases h : (t.get_option opt).local_ = true ∧
        (t.get_option opt).local_state = true
    · simp [Parser.receive, Parser.process,
        extract_subnegFrame_plain opt P hopt255 hnm hP, Parser.process_go,
        process_event_subnegFrame, h]
    · simp [Parser.receive, Parser.process,
        extract_subnegFrame_plain opt P hopt255 hnm hP, Parser.process_go,
        process_event_subnegFrame, h]
  · intro k hk2 hklen
    simp [Parser.receive, Parser.process,
      extract_subnegFrame_prefix opt P k hopt255 hP hk2 hklen, Parser.process_go,
      process_event_subnegFrame_prefix
        { event_list := [], options := t, buffer := [] } opt P k hopt255 hP hk2 hklen]

/-- Witness for `claim6_subneg_validation`: option 1 with mask 5, and the
zero-content frame `[IAC, SB, 1, IAC, SE]` — a `Subnegotiation` event with
empty payload is emitted; the 2-byte prefix is re-buffered. -/
theorem claim6_subneg_validation_witness :
    (Parser.receive
        { options := CompatibilityTable.from_options [(1, 5)], buffer := [] }
        (subnegFrame 1 []) =
      some ([TelnetEvents.Subnegotiation 1 []],
            { options := CompatibilityTable.from_options [(1, 5)], buffer := [] })) ∧
    (Parser.receive
        { options := CompatibilityTable.from_options [(1, 5)], buffer := [] }
        ((subnegFrame 1 []).take 2) =
      some ([], { options := CompatibilityTable.from_options [(1, 5)],
                  buffer := (subnegFrame 1 []).take 2 })) := by
  have h := claim6_subneg_validation (CompatibilityTable.from_options [(1, 5)]) 1 []
    (by decide) (by decide) (by decide)
  refine ⟨?_, h.2 2 (by decide) (by decide)⟩
  have h1 := h.1
  rw [if_pos (by decide)] at h1
  exact h1

/-- C1 (amended): fragmentation invariance fails in general (see the
counterexample), but holds for a complete subnegotiation frame with a
non-MCCP, non-255 option code and IAC-free payload whenever the first piece
is at least 2 bytes: the first `receive` emits nothing and re-buffers its
piece, and the two-call event concatenation and final state equal those of
the single-call delivery. -/
theorem claim1_fragmentation_subneg (t : CompatibilityTable) (opt : Nat)
    (P M1 M2 : List Nat) (hopt255 : opt ≠ 255)
    (hnm : ¬ (opt = op_option.MCCP2 ∨ opt = op_option.MCCP3))
    (hP : ∀ x ∈ P, x ≠ 255) (hsplit : M1 ++ M2 = subnegFrame opt P)
    (h1 : 2 ≤ M1.length) (h2 : M2 ≠ []) :
    ∃ evs p2,
      Parser.receive { options := t, buffer := [] } (subnegFrame opt P) =
        some (evs, p2) ∧
      Parser.receive { options := t, buffer := [] } M1 =
        some ([], { options := t, buffer := M1 }) ∧
      Parser.receiveSeq { options := t, buffer := [] } [M1, M2] =
        some (evs, p2) := by
  have hlen : M1.length + M2.length = (subnegFrame opt P).length := by
    have h3 := congrArg List.length hsplit
    simpa using h3
  have hklen : M1.length < (subnegFrame opt P).length := by
    have h4 : 0 < M2.length := List.length_pos.mpr h2
    omega
  have hM1 : M1 = (subnegFrame opt P).take M1.length := by
    rw [← hsplit]
    exact (List.take_left _ _).symm
  have hfull : Parser.receive { options := t, buffer := [] } (subnegFrame opt P) =
      some ((if (t.get_option opt).local_ = true ∧
               (t.get_option opt).local_state = true
             then [TelnetEvents.Subnegotiation opt P] else []),
            { options := t, buffer := [] }) := by
    by_cases h : (t.get_option opt).local_ = true ∧
        (t.get_option opt).local_state = true
    · simp [Parser.receive, Parser.process,
        extract_subnegFrame_plain opt P hopt255 hnm hP, Parser.process_go,
        process_event_subnegFrame, h]
    · simp [Parser.receive, Parser.process,
        extract_subnegFrame_plain opt P hopt255 hnm hP, Parser.process_go,
        process_event_subnegFrame, h]
  have hcall1 : Parser.receive { options := t, buffer := [] } M1 =
      some ([], { options := t, buffer := M1 }) := by
    rw [hM1]
    simp [Parser.receive, Parser.process,
      extract_subnegFrame_prefix opt P M1.length hopt255 hP h1 hklen,
      Parser.process_go,
      process_event_subnegFrame_prefix
        { event_list := [], options := t, buffer := [] } opt P M1.length
        hopt255 hP h1 hklen]
  have hcall2 : Parser.receive { options := t, buffer := M1 } M2 =
      Parser.receive { options := t, buffer := [] } (subnegFrame opt P) := by
    show Parser.process { options := t, buffer := M1 ++ M2 } =
      Parser.process { options := t, buffer := [] ++ subnegFrame opt P }
    rw [hsplit]
    rfl
  refine ⟨_, _, hfull, hcall1, ?_⟩
  simp [Parser.receiveSeq, hcall1, hcall2, hfull]

/-- Witness for `claim1_fragmentation_subneg`: option 1 (mask 5), payload
`[32]`, split `[255, 250]` / `[1, 32, 255, 240]`. -/
theorem claim1_fragmentation_subneg_witness :
    ∃ evs p2,
      Parser.receive
          { options := CompatibilityTable.from_options [(1, 5)], buffer := [] }
          (subnegFrame 1 [32]) = some (evs, p2) ∧
      Parser.receive
          { options := CompatibilityTable.from_options [(1, 5)], buffer := [] }
          [255, 250] =
        some ([], { options := CompatibilityTable.from_options [(1, 5)],
                    buffer := [255, 250] }) ∧
      Parser.receiveSeq
          { options := CompatibilityTable.from_options [(1, 5)], buffer := [] }
          [[255, 250], [1, 32, 255, 240]] = some (evs, p2) :=
  claim1_fragmentation_subneg _ 1 [32] [255, 250] [1, 32, 255, 240]
    (by decide) (by decide) (by decide) (by decide) (by decide) (by decide)

